import Mathlib

/-!
Verification of the core of `tbsh` (src/main.cpp): the directory-history
navigator, the upward/downward path search, the directive transformer and
the `cd` built-in.

Modelling conventions (shallow embedding):

* Filesystem paths are lists of components.  For `upfind` we use the
  innermost-first order (the path `/a/b` is `["b", "a"]`), so that
  `fs::path::parent_path()` is `List.tail` and the filesystem root is `[]`.
  For `downfind` relative paths are in root-first order (`a/b/c.txt` is
  `["a", "b", "c.txt"]`), matching how the BFS extends them.
* The filesystem itself is a parameter: for `upfind` a predicate saying
  which paths exist as directories, for `downfind` an explicit finite tree
  of entries (`FSEntry`).  `std::filesystem::directory_iterator` order is
  the order of the children list.
* C++ exceptions become `Option`/`Except` results.  The `runtime_error`
  messages "Search limit reached, target not found." and
  "Target '...' not found." become the two constructors of `FindError`;
  both carry the final value of `search_count` as instrumentation so that
  "how many entries were examined" is visible in statements.
* `downfindGo` carries an explicit fuel argument bounding the number of
  queue pops (the C++ loop terminates because the queue is finite); the
  fuel passed by `downfind` is always sufficient, and the fuel-exhausted
  branch is unreachable there.
-/

/-- Model of `class DirectoryHistory` (src/main.cpp:18-47): a deque of
visited directories plus the cursor `current_index`. -/
structure DirectoryHistory where
  history : List String
  current_index : Nat
deriving DecidableEq

/-- Model of `DirectoryHistory::add` (src/main.cpp:24-29): append `path`
unless it equals the current tail, and move the cursor to the new tail
(`current_index = history.size() - 1`, which is the old length). -/
def DirectoryHistory.add (h : DirectoryHistory) (path : String) : DirectoryHistory :=
  if h.history.isEmpty || h.history.getLast? != some path then
    { history := h.history ++ [path], current_index := h.history.length }
  else h

/-- Model of `DirectoryHistory::back` (src/main.cpp:31-37): if the cursor is
positive, decrement it and return the entry there together with the new
state; `none` models the thrown "No previous directory in history". -/
def DirectoryHistory.back (h : DirectoryHistory) : Option (String × DirectoryHistory) :=
  if 0 < h.current_index then
    some (h.history.getD (h.current_index - 1) "",
      { history := h.history, current_index := h.current_index - 1 })
  else none

/-- Model of `DirectoryHistory::forward` (src/main.cpp:39-45): if the cursor
is below the last index, increment it and return the entry there; `none`
models the thrown "No next directory in history".  (The `size_t` wrap of
`history.size() - 1` on an empty deque is unreachable: the history is
seeded at session start and never shrinks.) -/
def DirectoryHistory.forward (h : DirectoryHistory) : Option (String × DirectoryHistory) :=
  if h.current_index < h.history.length - 1 then
    some (h.history.getD (h.current_index + 1) "",
      { history := h.history, current_index := h.current_index + 1 })
  else none

/-- Model of `DirectoryHistory::current` (src/main.cpp:47). -/
def DirectoryHistory.current (h : DirectoryHistory) : String :=
  h.history.getD h.current_index ""

/-- History states reachable by the program: the `Shell` constructor seeds
the empty history with the initial working directory (src/main.cpp:58), and
afterwards the state changes only through `add` (`cd`), `back` (`bk`) and
`forward` (`fw`); the failing `back`/`forward` calls leave the state
unchanged. -/
inductive DirectoryHistory.Reachable : DirectoryHistory → Prop where
  | seed (p : String) :
      DirectoryHistory.Reachable (DirectoryHistory.add ⟨[], 0⟩ p)
  | add_step (h : DirectoryHistory) (p : String) :
      DirectoryHistory.Reachable h → DirectoryHistory.Reachable (h.add p)
  | back_step (h : DirectoryHistory) (p : String) (h' : DirectoryHistory) :
      DirectoryHistory.Reachable h → h.back = some (p, h') →
      DirectoryHistory.Reachable h'
  | forward_step (h : DirectoryHistory) (p : String) (h' : DirectoryHistory) :
      DirectoryHistory.Reachable h → h.forward = some (p, h') →
      DirectoryHistory.Reachable h'

/-- Model of `Shell::upfind` (src/main.cpp:74-89).  `fs A = true` means the
path `A` (innermost-first components) exists and is a directory.  Starting
from `start`, test `current / dir_name`; on success return it, at the root
(`[]`) fail (`none` models the thrown "Directory ... not found upwards"),
otherwise continue at `parent_path()`, i.e. the tail. -/
def upfind (fs : List String → Bool) (dir_name : String) :
    List String → Option (List String)
  | [] => if fs [dir_name] then some [dir_name] else none
  | d :: rest =>
    if fs (dir_name :: d :: rest) then some (dir_name :: d :: rest)
    else upfind fs dir_name rest

/-- A filesystem subtree: the argument of `Shell::downfind`'s traversal.
Children are listed in the order `fs::directory_iterator` yields them. -/
inductive FSEntry where
  | file (name : String)
  | dir (name : String) (children : List FSEntry)

/-- Rendering of a root-first component list the way
`fs::path::string()` renders a relative path on POSIX. -/
def pathStr (comps : List String) : String := String.intercalate "/" comps

/-- Model of the match test in `Shell::downfind` (src/main.cpp:110-113):
`rel_path_str.size() >= target_pattern.size()` and
`rel_path_str.compare(size - psize, psize, target_pattern) == 0`, i.e. the
trailing `psize` characters of the relative path equal the pattern. -/
def strMatches (pat s : String) : Bool :=
  decide (pat.data.length ≤ s.data.length) &&
    (s.data.drop (s.data.length - pat.data.length) == pat.data)

/-- The two failure exceptions of `Shell::downfind`, each carrying the final
value of `search_count` (how many entries had consumed budget). -/
inductive FindError where
  | notFound (examined : Nat)
  | limitReached (examined : Nat)
deriving DecidableEq

/-- Outcome of the inner `for (const auto &entry : fs::directory_iterator(dir))`
loop of `Shell::downfind` (src/main.cpp:103-123) over one directory. -/
inductive ScanResult where
  | found (relPath : List String)
  | limitHit (examined : Nat)
  | done (pushed : List (List String × List FSEntry)) (count : Nat)

/-- Model of the inner loop of `Shell::downfind` (src/main.cpp:103-123):
iterate over the children of the directory at relative path `rel` with
`search_count = c`.  A subdirectory is recorded for the queue; a
non-directory entry is tested with `strMatches` against its relative path
and returned on success.  Every entry then increments `search_count`, and
`search_count >= limit` throws (the match test precedes the increment, so a
matching entry returns before consuming budget). -/
def scanChildren (target_pattern : String) (limit : Nat) (rel : List String) :
    List FSEntry → Nat → ScanResult
  | [], c => .done [] c
  | .dir name cs :: es, c =>
    if limit ≤ c + 1 then .limitHit (c + 1)
    else
      match scanChildren target_pattern limit rel es (c + 1) with
      | .done pushed c'' => .done ((rel ++ [name], cs) :: pushed) c''
      | r => r
  | .file name :: es, c =>
    if strMatches target_pattern (pathStr (rel ++ [name])) then
      .found (rel ++ [name])
    else if limit ≤ c + 1 then .limitHit (c + 1)
    else scanChildren target_pattern limit rel es (c + 1)

mutual
/-- Number of directories in a subtree (used to bound the queue pops). -/
def dirCount : FSEntry → Nat
  | .file _ => 0
  | .dir _ cs => 1 + dirCountList cs
/-- Number of directories in a list of subtrees. -/
def dirCountList : List FSEntry → Nat
  | [] => 0
  | e :: es => dirCount e + dirCountList es
end

mutual
/-- Number of entries (files and directories) in a subtree. -/
def sizeOfEntry : FSEntry → Nat
  | .file _ => 1
  | .dir _ cs => 1 + entsSize cs
/-- Number of entries in a list of subtrees ("K total entries"). -/
def entsSize : List FSEntry → Nat
  | [] => 0
  | e :: es => sizeOfEntry e + entsSize es
end

/-- Model of the outer `while (!directories.empty() && search_count < limit)`
loop of `Shell::downfind` (src/main.cpp:98-124).  Queue elements pair a
directory's relative path with its children.  When the loop exits — empty
queue, exhausted `while` condition, or exhausted fuel — the function fails
with `notFound` ("Target ... not found.", src/main.cpp:126); `limitReached`
is the throw at src/main.cpp:121.  The fuel strictly exceeds the number of
pops whenever it is at least the queue length plus the number of
directories inside the queued subtrees, as `downfind` arranges. -/
def downfindGo (target_pattern : String) (limit : Nat) :
    Nat → List (List String × List FSEntry) → Nat → Except FindError (List String)
  | 0, _, c => .error (.notFound c)
  | _ + 1, [], c => .error (.notFound c)
  | fuel + 1, (rel, cs) :: rest, c =>
    if c < limit then
      match scanChildren target_pattern limit rel cs c with
      | .found r => .ok r
      | .limitHit n => .error (.limitReached n)
      | .done pushed c' => downfindGo target_pattern limit fuel (rest ++ pushed) c'
    else .error (.notFound c)

/-- Model of `Shell::downfind` (src/main.cpp:91-127): BFS from `start`
(whose children are `tree`), with `search_count = 0` and the queue seeded
with `start` itself.  On success the C++ returns `entry.path().string()`,
the full path, i.e. `start` extended by the relative path. -/
def downfind (target_pattern : String) (start : List String) (tree : List FSEntry)
    (limit : Nat := 1000) : Except FindError (List String) :=
  (downfindGo target_pattern limit (1 + dirCountList tree) [([], tree)] 0).map
    (fun rel => start ++ rel)

mutual
/-- No file anywhere in the subtree `e` (reached at relative path `rel`)
matches the pattern. -/
def noMatchUnder (target_pattern : String) (rel : List String) : FSEntry → Bool
  | .file name => ! strMatches target_pattern (pathStr (rel ++ [name]))
  | .dir name cs => noMatchList target_pattern (rel ++ [name]) cs
/-- No file in any of the subtrees matches the pattern. -/
def noMatchList (target_pattern : String) (rel : List String) : List FSEntry → Bool
  | [] => true
  | e :: es => noMatchUnder target_pattern rel e && noMatchList target_pattern rel es
end

/-- The queue records produced for the subdirectories of a children list,
in order (what the C++ `directories.push` calls accumulate). -/
def pushedDirs (rel : List String) : List FSEntry → List (List String × List FSEntry)
  | [] => []
  | .dir name cs :: es => (rel ++ [name], cs) :: pushedDirs rel es
  | .file _ :: es => pushedDirs rel es

/-- Total number of entries still to be examined in the queued subtrees. -/
def remEntries : List (List String × List FSEntry) → Nat
  | [] => 0
  | e :: rest => entsSize e.2 + remEntries rest

/-- No file in any queued subtree matches the pattern. -/
def noMatchQ (target_pattern : String) : List (List String × List FSEntry) → Bool
  | [] => true
  | e :: rest => noMatchList target_pattern e.1 e.2 && noMatchQ target_pattern rest

/-- Fuel adequate for `downfindGo`: one pop per queued record plus one per
directory inside the queued subtrees. -/
def fuelFor : List (List String × List FSEntry) → Nat
  | [] => 0
  | e :: rest => 1 + dirCountList e.2 + fuelFor rest

/-- Character class of the directive regex `(<|>)([a-zA-Z0-9_.\-\/]+)` in
`Shell::transform_command` (src/main.cpp:130). -/
def isPathSafe (c : Char) : Bool :=
  (('a' ≤ c && c ≤ 'z') || ('A' ≤ c && c ≤ 'Z') || ('0' ≤ c && c ≤ '9')
    || c == '_' || c == '.' || c == '-' || c == '/')

/-- Whether a character list starts with a path-safe character, i.e. whether
a directive marker right before it would start a regex match. -/
def headSafe : List Char → Bool
  | [] => false
  | d :: _ => isPathSafe d

/-- Whether the regex of `Shell::transform_command` matches anywhere: some
`<` or `>` is immediately followed by a path-safe character. -/
def hasDirective : List Char → Bool
  | [] => false
  | c :: rest => ((c == '<') || (c == '>')) && headSafe rest || hasDirective rest

/-- Model of the `std::sregex_iterator` loop of `Shell::transform_command`
(src/main.cpp:129-167), scanning left to right.  Characters that do not
start a match are copied verbatim.  At a match — a marker `<` or `>`
followed by a maximal nonempty run of path-safe characters — `resolve`
stands for the `upfind`/`downfind` call on the captured pattern: on `some
path` the resolved path replaces the matched text, on `none` (a thrown
search failure) the matched text is kept (src/main.cpp:158-161), and the
scan resumes after the match.  The fuel bounds the recursion; a fuel of at
least the list length, as `transform_command` passes, is never exhausted. -/
def transformGo (resolve : Char → String → Option String) :
    Nat → List Char → List Char
  | 0, l => l
  | _ + 1, [] => []
  | fuel + 1, c :: rest =>
    if ((c == '<') || (c == '>')) && headSafe rest then
      (match resolve c (String.mk (rest.takeWhile isPathSafe)) with
        | some path => path.data
        | none => c :: rest.takeWhile isPathSafe) ++
        transformGo resolve fuel (rest.dropWhile isPathSafe)
    else c :: transformGo resolve fuel rest

/-- Model of `Shell::transform_command` (src/main.cpp:129-167), with the
path searches abstracted into `resolve direction pattern`. -/
def transform_command (resolve : Char → String → Option String)
    (command : String) : String :=
  String.mk (transformGo resolve command.data.length command.data)

/-- Model of `Shell::change_directory` (src/main.cpp:170-179) together with
the process working directory.  `os path` is the outcome of `chdir(path)`
followed by `fs::current_path()`: `some newCwd` on success, `none` when the
OS rejects the target.  Returns the C++ return value, the resulting working
directory and the resulting history. -/
def change_directory (os : String → Option String) (cwd : String)
    (hist : DirectoryHistory) (path : String) (update_history : Bool) :
    Bool × String × DirectoryHistory :=
  match os path with
  | some newCwd =>
    (true, newCwd, if update_history then hist.add newCwd else hist)
  | none => (false, cwd, hist)

theorem upfind_eq_find (fs : List String → Bool) (dir_name : String) :
    ∀ D : List String,
      upfind fs dir_name D =
        (List.find? (fun A => fs (dir_name :: A)) D.tails).map
          (fun A => dir_name :: A) := by
  intro D
  induction D with
  | nil =>
    cases hf : fs [dir_name] with
    | true => simp [upfind, hf, List.find?]
    | false => simp [upfind, hf, List.find?]
  | cons d rest ih =>
    cases hf : fs (dir_name :: d :: rest) with
    | true => simp [upfind, hf, List.tails_cons, List.find?]
    | false => simp [upfind, hf, List.tails_cons, List.find?, ih]

/-- C1: if `dir_name` exists as a directory at some ancestor of `D`
(`D` itself included) then `upfind` returns that closest ancestor's child
`dir_name` (`List.find?` over `D.tails` selects the closest ancestor, since
`D.tails` lists the ancestors from `D` itself down to the root `[]`); if no
ancestor up to and including the root has it, `upfind` fails, and failure
implies the root itself was tested (`fs [dir_name] = false`). -/
theorem upfind_closest_ancestor (fs : List String → Bool) (dir_name : String)
    (D : List String) :
    (upfind fs dir_name D =
      (List.find? (fun A => fs (dir_name :: A)) D.tails).map
        (fun A => dir_name :: A)) ∧
    (upfind fs dir_name D = none → fs [dir_name] = false) := by
  refine ⟨upfind_eq_find fs dir_name D, fun hnone => ?_⟩
  rw [upfind_eq_find fs dir_name D] at hnone
  have hfind : List.find? (fun A => fs (dir_name :: A)) D.tails = none := by
    cases hF : List.find? (fun A => fs (dir_name :: A)) D.tails with
    | none => rfl
    | some A => rw [hF] at hnone; simp at hnone
  rw [List.find?_eq_none] at hfind
  have hmem : ([] : List String) ∈ D.tails := by
    rw [List.mem_tails]
    exact List.nil_suffix
  have := hfind [] hmem
  simpa using this

theorem upfind_closest_ancestor_witness :
    upfind (fun l => decide (l = ["n", "a"])) "n" ["b", "a"] = some ["n", "a"] ∧
    (fun (_ : List String) => false) ["n"] = false := by
  constructor
  · rw [(upfind_closest_ancestor (fun l => decide (l = ["n", "a"])) "n" ["b", "a"]).1]
    rfl
  · exact (upfind_closest_ancestor (fun _ => false) "n" ["b", "a"]).2 rfl

/-- C4: from the seeded history `[P0]` with cursor 0, `add P1` (for a new
path `P1`) gives entries `[P0, P1]` and cursor 1; `back` from there returns
`P0` moving the cursor to 0; a second `back` fails (`none`, the state is
untouched since the C++ throws before mutating); `forward` then returns
`P1` moving the cursor to 1; `forward` at the tail likewise fails. -/
theorem history_scenario (P0 P1 : String) (hne : P1 ≠ P0) :
    DirectoryHistory.add ⟨[P0], 0⟩ P1 = ⟨[P0, P1], 1⟩ ∧
    DirectoryHistory.back ⟨[P0, P1], 1⟩ = some (P0, ⟨[P0, P1], 0⟩) ∧
    DirectoryHistory.back ⟨[P0, P1], 0⟩ = none ∧
    DirectoryHistory.forward ⟨[P0, P1], 0⟩ = some (P1, ⟨[P0, P1], 1⟩) ∧
    DirectoryHistory.forward ⟨[P0, P1], 1⟩ = none := by
  refine ⟨?_, ?_, ?_, ?_, ?_⟩
  · have : P0 ≠ P1 := fun he => hne he.symm
    simp [DirectoryHistory.add, this]
  · simp [DirectoryHistory.back]
  · simp [DirectoryHistory.back]
  · simp [DirectoryHistory.forward]
  · simp [DirectoryHistory.forward]

theorem history_scenario_witness :
    DirectoryHistory.add ⟨["a"], 0⟩ "b" = ⟨["a", "b"], 1⟩ ∧
    DirectoryHistory.back ⟨["a", "b"], 1⟩ = some ("a", ⟨["a", "b"], 0⟩) ∧
    DirectoryHistory.back ⟨["a", "b"], 0⟩ = none ∧
    DirectoryHistory.forward ⟨["a", "b"], 0⟩ = some ("b", ⟨["a", "b"], 1⟩) ∧
    DirectoryHistory.forward ⟨["a", "b"], 1⟩ = none :=
  history_scenario "a" "b" (by decide)

theorem back_preserves_entries (h : DirectoryHistory) (p : String)
    (h' : DirectoryHistory) (hb : h.back = some (p, h')) :
    h'.history = h.history ∧ h'.current_index = h.current_index - 1 := by
  unfold DirectoryHistory.back at hb
  split at hb
  · simp only [Option.some.injEq, Prod.mk.injEq] at hb
    rw [← hb.2]
    exact ⟨rfl, rfl⟩
  · exact absurd hb (by simp)

theorem forward_preserves_entries (h : DirectoryHistory) (p : String)
    (h' : DirectoryHistory) (hf : h.forward = some (p, h')) :
    h'.history = h.history ∧ h'.current_index = h.current_index + 1 := by
  unfold DirectoryHistory.forward at hf
  split at hf
  · simp only [Option.some.injEq, Prod.mk.injEq] at hf
    rw [← hf.2]
    exact ⟨rfl, rfl⟩
  · exact absurd hf (by simp)

theorem reachable_invariant (h : DirectoryHistory)
    (hr : DirectoryHistory.Reachable h) :
    h.history ≠ [] ∧ h.current_index < h.history.length := by
  induction hr with
  | seed p => refine ⟨by simp [DirectoryHistory.add], by simp [DirectoryHistory.add]⟩
  | add_step h p hr ih =>
    unfold DirectoryHistory.add
    split
    · refine ⟨by simp, by simp⟩
    · exact ih
  | back_step h p h' hr hb ih =>
    obtain ⟨hhist, hidx⟩ := back_preserves_entries h p h' hb
    rw [hhist, hidx]
    exact ⟨ih.1, by omega⟩
  | forward_step h p h' hr hf ih =>
    obtain ⟨hhist, hidx⟩ := forward_preserves_entries h p h' hf
    have hlt : h.current_index < h.history.length - 1 := by
      unfold DirectoryHistory.forward at hf
      split at hf
      · assumption
      · exact absurd hf (by simp)
    rw [hhist, hidx]
    exact ⟨ih.1, by omega⟩

/-- C5: every history state reachable from the seeded initial state by
`add`/`back`/`forward` has a non-empty `history` and a cursor strictly
inside it; moreover `back` and `forward`, when they succeed, change only
the cursor and leave `history` untouched (failing calls leave the whole
state untouched by construction). -/
theorem history_reachable_invariant :
    (∀ h : DirectoryHistory, DirectoryHistory.Reachable h →
      h.history ≠ [] ∧ h.current_index < h.history.length) ∧
    (∀ (h : DirectoryHistory) (p : String) (h' : DirectoryHistory),
      h.back = some (p, h') → h'.history = h.history) ∧
    (∀ (h : DirectoryHistory) (p : String) (h' : DirectoryHistory),
      h.forward = some (p, h') → h'.history = h.history) :=
  ⟨reachable_invariant,
   fun h p h' hb => (back_preserves_entries h p h' hb).1,
   fun h p h' hf => (forward_preserves_entries h p h' hf).1⟩

theorem history_reachable_invariant_witness :
    ((⟨["a"], 0⟩ : DirectoryHistory).history ≠ [] ∧
      (⟨["a"], 0⟩ : DirectoryHistory).current_index <
        (⟨["a"], 0⟩ : DirectoryHistory).history.length) ∧
    (⟨["a", "b"], 0⟩ : DirectoryHistory).history = ["a", "b"] :=
  ⟨history_reachable_invariant.1 ⟨["a"], 0⟩ (DirectoryHistory.Reachable.seed "a"),
   history_reachable_invariant.2.1 ⟨["a", "b"], 1⟩ "a" ⟨["a", "b"], 0⟩ rfl⟩

theorem add_tail_noop (h : DirectoryHistory) (P : String)
    (htail : h.history.getLast? = some P) : h.add P = h := by
  unfold DirectoryHistory.add
  have hne : h.history ≠ [] := by
    intro he
    rw [he] at htail
    simp at htail
  rw [htail]
  simp [List.isEmpty_iff, hne]

theorem add_tail (h : DirectoryHistory) (P : String) :
    (h.add P).history.getLast? = some P := by
  unfold DirectoryHistory.add
  split
  · exact List.getLast?_concat _
  · rename_i hc
    simp only [Bool.or_eq_true, not_or, Bool.not_eq_true, bne_eq_false_iff_eq] at hc
    exact hc.2

/-- C8: an `add` whose argument equals the current tail entry is a no-op
(entries and cursor both unchanged), hence `add P` twice is the same as
`add P` once from any state. -/
theorem add_dedup :
    (∀ (h : DirectoryHistory) (P : String),
      h.history.getLast? = some P → h.add P = h) ∧
    (∀ (h : DirectoryHistory) (P : String), (h.add P).add P = h.add P) :=
  ⟨add_tail_noop, fun h P => add_tail_noop (h.add P) P (add_tail h P)⟩

theorem add_dedup_witness :
    DirectoryHistory.add ⟨["a", "b"], 0⟩ "b" = ⟨["a", "b"], 0⟩ ∧
    DirectoryHistory.add (DirectoryHistory.add ⟨["a"], 1⟩ "c") "c" =
      DirectoryHistory.add ⟨["a"], 1⟩ "c" :=
  ⟨add_dedup.1 ⟨["a", "b"], 0⟩ "b" rfl, add_dedup.2 ⟨["a"], 1⟩ "c"⟩

/-- C9: when the OS rejects the `cd` target (`chdir` nonzero, modelled by
`os path = none`), `change_directory` reports failure and both the working
directory and the history (entries and cursor alike) are unchanged; on
success the new current directory is appended to the history (the `cd`
dispatch at src/main.cpp:236-246 calls it with `update_history = true`). -/
theorem cd_error_handling :
    (∀ (os : String → Option String) (cwd : String) (hist : DirectoryHistory)
        (path : String), os path = none →
      change_directory os cwd hist path true = (false, cwd, hist)) ∧
    (∀ (os : String → Option String) (cwd : String) (hist : DirectoryHistory)
        (path newCwd : String), os path = some newCwd →
      change_directory os cwd hist path true = (true, newCwd, hist.add newCwd)) := by
  constructor
  · intro os cwd hist path hos
    simp [change_directory, hos]
  · intro os cwd hist path newCwd hos
    simp [change_directory, hos]

theorem cd_error_handling_witness :
    change_directory (fun _ => none) "/c" ⟨["/c"], 0⟩ "/missing" true =
      (false, "/c", ⟨["/c"], 0⟩) ∧
    change_directory (fun _ => some "/x") "/c" ⟨["/c"], 0⟩ "/x" true =
      (true, "/x", DirectoryHistory.add ⟨["/c"], 0⟩ "/x") :=
  ⟨cd_error_handling.1 (fun _ => none) "/c" ⟨["/c"], 0⟩ "/missing" rfl,
   cd_error_handling.2 (fun _ => some "/x") "/c" ⟨["/c"], 0⟩ "/x" "/x" rfl⟩

theorem transformGo_no_directive (resolve : Char → String → Option String) :
    ∀ (fuel : Nat) (l : List Char), hasDirective l = false →
      transformGo resolve fuel l = l := by
  intro fuel
  induction fuel with
  | zero => intro l _; rfl
  | succ n ih =>
    intro l hl
    cases l with
    | nil => rfl
    | cons c rest =>
      simp only [hasDirective, Bool.or_eq_false_iff] at hl
      simp [transformGo, hl.1, ih rest hl.2]

/-- C6: an input line in which no `<` or `>` is immediately followed by a
path-safe character contains no directive token, and `transform_command`
returns it character-for-character identical, whatever the searches would
resolve to. -/
theorem transform_plain_identity (resolve : Char → String → Option String)
    (command : String) (h : hasDirective command.data = false) :
    transform_command resolve command = command := by
  cases command with
  | mk l =>
    show String.mk (transformGo resolve l.length l) = String.mk l
    rw [transformGo_no_directive resolve l.length l h]

theorem transform_plain_identity_witness :
    transform_command (fun _ _ => some "/RESOLVED") "ls -la" = "ls -la" :=
  transform_plain_identity (fun _ _ => some "/RESOLVED") "ls -la" (by decide)

theorem takeWhile_all_append (p : Char → Bool) :
    ∀ l1 l2 : List Char, l1.all p = true →
      (l1 ++ l2).takeWhile p = l1 ++ l2.takeWhile p := by
  intro l1 l2 h
  induction l1 with
  | nil => simp
  | cons a l1 ih =>
    simp only [List.all_cons, Bool.and_eq_true] at h
    simp [List.takeWhile_cons, h.1, ih h.2]

theorem dropWhile_all_append (p : Char → Bool) :
    ∀ l1 l2 : List Char, l1.all p = true →
      (l1 ++ l2).dropWhile p = l2.dropWhile p := by
  intro l1 l2 h
  induction l1 with
  | nil => simp
  | cons a l1 ih =>
    simp only [List.all_cons, Bool.and_eq_true] at h
    simp [List.dropWhile_cons, h.1, ih h.2]

theorem takeWhile_head_unsafe (l : List Char) (h : headSafe l = false) :
    l.takeWhile isPathSafe = [] := by
  cases l with
  | nil => rfl
  | cons d t =>
    simp only [headSafe] at h
    simp [List.takeWhile_cons, h]

theorem dropWhile_head_unsafe (l : List Char) (h : headSafe l = false) :
    l.dropWhile isPathSafe = l := by
  cases l with
  | nil => rfl
  | cons d t =>
    simp only [headSafe] at h
    simp [List.dropWhile_cons, h]

theorem marker_not_pathSafe (m : Char) (hm : (m == '<' || m == '>') = true) :
    isPathSafe m = false := by
  rcases Bool.or_eq_true_iff.mp hm with h | h
  · rw [eq_of_beq h]; rfl
  · rw [eq_of_beq h]; rfl

theorem transformGo_copy (resolve : Char → String → Option String) :
    ∀ (pre : List Char) (fuel : Nat) (tail : List Char),
      hasDirective pre = false → headSafe tail = false →
      transformGo resolve (pre.length + fuel) (pre ++ tail) =
        pre ++ transformGo resolve fuel tail := by
  intro pre
  induction pre with
  | nil => intro fuel tail _ _; simp
  | cons c pre ih =>
    intro fuel tail hpre htail
    simp only [hasDirective, Bool.or_eq_false_iff] at hpre
    have hcond : (((c == '<') || (c == '>')) && headSafe (pre ++ tail)) = false := by
      cases pre with
      | nil => simp [htail]
      | cons d t => exact hpre.1
    have hlen : (c :: pre).length + fuel = (pre.length + fuel) + 1 := by
      simp [List.length_cons]
      omega
    rw [hlen, List.cons_append]
    simp [transformGo, hcond, ih fuel tail hpre.2 htail]

theorem transformGo_failed_directive (resolve : Char → String → Option String)
    (m : Char) (pat post : List Char) (fuel : Nat)
    (hm : (m == '<' || m == '>') = true) (hpat : pat ≠ [])
    (hsafe : pat.all isPathSafe = true) (hpost : headSafe post = false)
    (hres : resolve m (String.mk pat) = none) :
    transformGo resolve (fuel + 1) (m :: (pat ++ post)) =
      m :: (pat ++ transformGo resolve fuel post) := by
  have hhead : headSafe (pat ++ post) = true := by
    cases pat with
    | nil => exact absurd rfl hpat
    | cons p0 t =>
      simp only [List.all_cons, Bool.and_eq_true] at hsafe
      simpa [headSafe] using hsafe.1
  have htake : (pat ++ post).takeWhile isPathSafe = pat := by
    rw [takeWhile_all_append isPathSafe pat post hsafe, takeWhile_head_unsafe post hpost,
      List.append_nil]
  have hdrop : (pat ++ post).dropWhile isPathSafe = post := by
    rw [dropWhile_all_append isPathSafe pat post hsafe, dropWhile_head_unsafe post hpost]
  simp [transformGo, hm, hhead, htake, hdrop, hres]

/-- C7: a directive whose search fails is non-fatal and leaves the line
intact around it.  First part: if every directive fails to resolve, the
whole transformation is the identity (all matched directive text is kept
verbatim in place and everything outside matches is copied verbatim).
Second part: in a line `pre ++ m ++ pat ++ post` whose prefix `pre` has no
directive, where `m` is a marker followed by the maximal path-safe run
`pat`, a failing resolution keeps `pre`, the matched text `m ++ pat`, and
still processes the remainder `post`. -/
theorem transform_failure_preserves_text :
    (∀ command : String, transform_command (fun _ _ => none) command = command) ∧
    (∀ (resolve : Char → String → Option String) (pre : List Char) (m : Char)
        (pat post : List Char) (fuel : Nat),
      hasDirective pre = false → (m == '<' || m == '>') = true → pat ≠ [] →
      pat.all isPathSafe = true → headSafe post = false →
      resolve m (String.mk pat) = none →
      transformGo resolve (pre.length + (fuel + 1)) (pre ++ m :: (pat ++ post)) =
        pre ++ m :: (pat ++ transformGo resolve fuel post)) := by
  constructor
  · have hall : ∀ (fuel : Nat) (l : List Char),
        transformGo (fun _ _ => none) fuel l = l := by
      intro fuel
      induction fuel with
      | zero => intro l; rfl
      | succ n ih =>
        intro l
        cases l with
        | nil => rfl
        | cons c rest =>
          by_cases hcond : (((c == '<') || (c == '>')) && headSafe rest) = true
          · simp only [transformGo, hcond, if_pos, ih]
            rw [List.cons_append, List.takeWhile_append_dropWhile]
          · simp [transformGo, hcond, ih]
    intro command
    cases command with
    | mk l =>
      show String.mk (transformGo (fun _ _ => none) l.length l) = String.mk l
      rw [hall l.length l]
  · intro resolve pre m pat post fuel hpre hm hpat hsafe hpost hres
    have htail : headSafe (m :: (pat ++ post)) = false := by
      simpa [headSafe] using marker_not_pathSafe m hm
    rw [transformGo_copy resolve pre (fuel + 1) (m :: (pat ++ post)) hpre htail,
      transformGo_failed_directive resolve m pat post fuel hm hpat hsafe hpost hres]

theorem transform_failure_preserves_text_witness :
    transform_command (fun _ _ => none) "a <x b" = "a <x b" ∧
    transformGo (fun _ _ => none) ("cp ".data.length + (5 + 1))
        ("cp ".data ++ '<' :: ("x".data ++ " b".data)) =
      "cp ".data ++ '<' :: ("x".data ++ transformGo (fun _ _ => none) 5 " b".data) :=
  ⟨transform_failure_preserves_text.1 "a <x b",
   transform_failure_preserves_text.2 (fun _ _ => none) "cp ".data '<' "x".data
     " b".data 5 (by decide) (by decide) (by decide) (by decide) (by decide) rfl⟩

theorem strMatches_iff_suffix (pat s : String) :
    strMatches pat s = true ↔ pat.data <:+ s.data := by
  unfold strMatches
  simp only [Bool.and_eq_true, decide_eq_true_eq, beq_iff_eq]
  constructor
  · intro h
    rw [List.suffix_iff_eq_drop]
    exact h.2.symm
  · intro h
    exact ⟨h.length_le, (List.suffix_iff_eq_drop.mp h).symm⟩

theorem scanChildren_found (pat : String) (limit : Nat) (rel : List String) :
    ∀ (cs : List FSEntry) (c : Nat) (r : List String),
      scanChildren pat limit rel cs c = .found r →
      strMatches pat (pathStr r) = true := by
  intro cs
  induction cs with
  | nil => intro c r h; exact ScanResult.noConfusion h
  | cons e es ih =>
    intro c r h
    cases e with
    | dir name cs' =>
      simp only [scanChildren] at h
      by_cases hl : limit ≤ c + 1
      · rw [if_pos hl] at h
        exact ScanResult.noConfusion h
      · rw [if_neg hl] at h
        cases hscan : scanChildren pat limit rel es (c + 1) with
        | done pushed c'' => rw [hscan] at h; exact ScanResult.noConfusion h
        | found r' =>
          rw [hscan] at h
          injection h with hr
          subst hr
          exact ih (c + 1) _ hscan
        | limitHit n => rw [hscan] at h; exact ScanResult.noConfusion h
    | file name =>
      simp only [scanChildren] at h
      by_cases hm : strMatches pat (pathStr (rel ++ [name])) = true
      · rw [if_pos hm] at h
        injection h with hr
        subst hr
        exact hm
      · rw [if_neg hm] at h
        by_cases hl : limit ≤ c + 1
        · rw [if_pos hl] at h
          exact ScanResult.noConfusion h
        · rw [if_neg hl] at h
          exact ih (c + 1) r h

theorem downfindGo_found (pat : String) (limit : Nat) :
    ∀ (fuel : Nat) (q : List (List String × List FSEntry)) (c : Nat)
      (r : List String), downfindGo pat limit fuel q c = .ok r →
      strMatches pat (pathStr r) = true := by
  intro fuel
  induction fuel with
  | zero => intro q c r h; exact Except.noConfusion h
  | succ n ih =>
    intro q c r h
    cases q with
    | nil => exact Except.noConfusion h
    | cons qe rest =>
      obtain ⟨rel, cs⟩ := qe
      simp only [downfindGo] at h
      by_cases hc : c < limit
      · rw [if_pos hc] at h
        cases hscan : scanChildren pat limit rel cs c with
        | found r' =>
          rw [hscan] at h
          injection h with hr
          subst hr
          exact scanChildren_found pat limit rel cs c r' hscan
        | limitHit m => rw [hscan] at h; exact Except.noConfusion h
        | done pushed c' =>
          rw [hscan] at h
          exact ih (rest ++ pushed) c' r h
      · rw [if_neg hc] at h
        exact Except.noConfusion h

/-- C3: a non-directory entry matches exactly when the pattern is a
byte-wise suffix of its path relative to the start directory
(`strMatches`, the source's length-guarded `compare`, is equivalent to the
suffix relation on the character sequences); any path `downfind` returns is
the start directory extended by a relative path of which the pattern is a
suffix; the relative path `a/b/c.txt` matches the patterns `c.txt` and
`b/c.txt` but not `x.txt`; and the first suffix match in BFS order over the
FIFO queue is returned immediately (`z.txt` at depth 0 wins over `d/z.txt`
even though both match). -/
theorem downfind_suffix_match :
    (∀ pat s : String, strMatches pat s = true ↔ pat.data <:+ s.data) ∧
    (∀ (pat : String) (start : List String) (tree : List FSEntry) (limit : Nat)
        (r : List String), downfind pat start tree limit = .ok r →
      ∃ rel, r = start ++ rel ∧ strMatches pat (pathStr rel) = true) ∧
    downfind "c.txt" [] [.dir "a" [.dir "b" [.file "c.txt"]]] 1000 =
      .ok ["a", "b", "c.txt"] ∧
    downfind "b/c.txt" [] [.dir "a" [.dir "b" [.file "c.txt"]]] 1000 =
      .ok ["a", "b", "c.txt"] ∧
    downfind "x.txt" [] [.dir "a" [.dir "b" [.file "c.txt"]]] 1000 =
      .error (.notFound 3) ∧
    downfind "z.txt" [] [.file "z.txt", .dir "d" [.file "z.txt"]] 1000 =
      .ok ["z.txt"] := by
  refine ⟨strMatches_iff_suffix, ?_, rfl, rfl, rfl, rfl⟩
  intro pat start tree limit r h
  unfold downfind at h
  cases hgo : downfindGo pat limit (1 + dirCountList tree) [([], tree)] 0 with
  | error e => rw [hgo] at h; exact Except.noConfusion h
  | ok rel =>
    rw [hgo] at h
    injection h with hr
    exact ⟨rel, hr.symm, downfindGo_found pat limit _ _ _ rel hgo⟩

theorem downfind_suffix_match_witness :
    ∃ rel, (["r", "z.txt"] : List String) = ["r"] ++ rel ∧
      strMatches "z.txt" (pathStr rel) = true :=
  downfind_suffix_match.2.1 "z.txt" ["r"] [.file "z.txt"] 1000 ["r", "z.txt"] rfl

/-- C10: the suffix-match test precedes the `search_count` increment, so a
matching entry is returned without consuming budget: with exactly
`limit - 1` units already consumed, a match on the next examined entry
still succeeds.  Concretely, with budget 2, the non-matching `a` consumes
the single spare unit and `b.txt` is still found; with budget 1 the search
dies on `a` before reaching `b.txt`. -/
theorem match_consumes_no_budget :
    (∀ (pat : String) (limit : Nat) (rel : List String) (name : String)
        (es : List FSEntry) (c : Nat), c = limit - 1 →
      strMatches pat (pathStr (rel ++ [name])) = true →
      scanChildren pat limit rel (.file name :: es) c = .found (rel ++ [name])) ∧
    downfind "b.txt" [] [.file "a", .file "b.txt"] 2 = .ok ["b.txt"] ∧
    downfind "b.txt" [] [.file "a", .file "b.txt"] 1 =
      .error (.limitReached 1) := by
  refine ⟨?_, rfl, rfl⟩
  intro pat limit rel name es c _ hm
  simp [scanChildren, hm]

theorem match_consumes_no_budget_witness :
    scanChildren "b.txt" 2 [] [.file "b.txt"] 1 = .found ["b.txt"] :=
  match_consumes_no_budget.1 "b.txt" 2 [] "b.txt" [] 1 (by decide) (by decide)

theorem length_le_entsSize : ∀ cs : List FSEntry, cs.length ≤ entsSize cs := by
  intro cs
  induction cs with
  | nil => simp [entsSize]
  | cons e es ih =>
    cases e with
    | file n => simp [entsSize, sizeOfEntry]; omega
    | dir n cs' => simp [entsSize, sizeOfEntry]; omega

theorem remEntries_pushedDirs (rel : List String) :
    ∀ cs : List FSEntry, remEntries (pushedDirs rel cs) + cs.length = entsSize cs := by
  intro cs
  induction cs with
  | nil => rfl
  | cons e es ih =>
    cases e with
    | file n =>
      simp only [pushedDirs, entsSize, sizeOfEntry, List.length_cons]
      omega
    | dir n cs' =>
      simp only [pushedDirs, remEntries, entsSize, sizeOfEntry, List.length_cons]
      omega

theorem remEntries_append : ∀ q1 q2, remEntries (q1 ++ q2) = remEntries q1 + remEntries q2 := by
  intro q1 q2
  induction q1 with
  | nil => simp [remEntries]
  | cons e q1 ih =>
    show remEntries (e :: (q1 ++ q2)) = remEntries (e :: q1) + remEntries q2
    simp only [remEntries, ih]
    omega

theorem fuelFor_append : ∀ q1 q2, fuelFor (q1 ++ q2) = fuelFor q1 + fuelFor q2 := by
  intro q1 q2
  induction q1 with
  | nil => simp [fuelFor]
  | cons e q1 ih =>
    show fuelFor (e :: (q1 ++ q2)) = fuelFor (e :: q1) + fuelFor q2
    simp only [fuelFor, ih]
    omega

theorem fuelFor_pushedDirs (rel : List String) :
    ∀ cs : List FSEntry, fuelFor (pushedDirs rel cs) = dirCountList cs := by
  intro cs
  induction cs with
  | nil => rfl
  | cons e es ih =>
    cases e with
    | file n => simp [pushedDirs, dirCountList, dirCount, ih]
    | dir n cs' => simp only [pushedDirs, fuelFor, dirCountList, dirCount, ih]

theorem noMatchQ_append (pat : String) :
    ∀ q1 q2, noMatchQ pat (q1 ++ q2) = (noMatchQ pat q1 && noMatchQ pat q2) := by
  intro q1 q2
  induction q1 with
  | nil => simp [noMatchQ]
  | cons e q1 ih =>
    show noMatchQ pat (e :: (q1 ++ q2)) = (noMatchQ pat (e :: q1) && noMatchQ pat q2)
    simp only [noMatchQ, ih, Bool.and_assoc]

theorem noMatchQ_pushedDirs (pat : String) (rel : List String) :
    ∀ cs : List FSEntry, noMatchList pat rel cs = true →
      noMatchQ pat (pushedDirs rel cs) = true := by
  intro cs
  induction cs with
  | nil => intro _; rfl
  | cons e es ih =>
    intro h
    simp only [noMatchList, Bool.and_eq_true] at h
    cases e with
    | file n => exact ih h.2
    | dir n cs' =>
      simp only [noMatchUnder] at h
      simp only [pushedDirs, noMatchQ, Bool.and_eq_true]
      exact ⟨h.1, ih h.2⟩

theorem scanChildren_noMatch_done (pat : String) (limit : Nat) (rel : List String) :
    ∀ (cs : List FSEntry) (c : Nat), noMatchList pat rel cs = true →
      c + cs.length < limit →
      scanChildren pat limit rel cs c = .done (pushedDirs rel cs) (c + cs.length) := by
  intro cs
  induction cs with
  | nil => intro c _ _; rfl
  | cons e es ih =>
    intro c hnm hlt
    simp only [noMatchList, Bool.and_eq_true] at hnm
    simp only [List.length_cons] at hlt
    cases e with
    | dir n cs' =>
      simp only [scanChildren]
      rw [if_neg (by omega : ¬ limit ≤ c + 1)]
      rw [ih (c + 1) hnm.2 (by omega)]
      simp only [pushedDirs, ScanResult.done.injEq, List.length_cons, true_and]
      omega
    | file n =>
      have hm : strMatches pat (pathStr (rel ++ [n])) = false := by
        simpa [noMatchUnder] using hnm.1
      simp only [scanChildren]
      rw [if_neg (by simp [hm]), if_neg (by omega : ¬ limit ≤ c + 1)]
      rw [ih (c + 1) hnm.2 (by omega)]
      simp only [pushedDirs, ScanResult.done.injEq, List.length_cons, true_and]
      omega

theorem scanChildren_noMatch_hit (pat : String) (limit : Nat) (rel : List String) :
    ∀ (cs : List FSEntry) (c : Nat), noMatchList pat rel cs = true →
      c < limit → limit ≤ c + cs.length →
      scanChildren pat limit rel cs c = .limitHit limit := by
  intro cs
  induction cs with
  | nil =>
    intro c _ hc hle
    simp only [List.length_nil, Nat.add_zero] at hle
    omega
  | cons e es ih =>
    intro c hnm hc hle
    simp only [noMatchList, Bool.and_eq_true] at hnm
    simp only [List.length_cons] at hle
    cases e with
    | dir n cs' =>
      simp only [scanChildren]
      by_cases h1 : limit ≤ c + 1
      · rw [if_pos h1]
        have : c + 1 = limit := by omega
        rw [this]
      · rw [if_neg h1]
        rw [ih (c + 1) hnm.2 (by omega) (by omega)]
    | file n =>
      have hm : strMatches pat (pathStr (rel ++ [n])) = false := by
        simpa [noMatchUnder] using hnm.1
      simp only [scanChildren]
      rw [if_neg (by simp [hm])]
      by_cases h1 : limit ≤ c + 1
      · rw [if_pos h1]
        have : c + 1 = limit := by omega
        rw [this]
      · rw [if_neg h1]
        exact ih (c + 1) hnm.2 (by omega) (by omega)

theorem downfindGo_noMatch (pat : String) (limit : Nat) :
    ∀ (fuel : Nat) (q : List (List String × List FSEntry)) (c : Nat),
      fuelFor q ≤ fuel → noMatchQ pat q = true → c < limit →
      downfindGo pat limit fuel q c =
        if limit ≤ c + remEntries q then .error (.limitReached limit)
        else .error (.notFound (c + remEntries q)) := by
  intro fuel
  induction fuel with
  | zero =>
    intro q c hfuel hnm hc
    have hq : q = [] := by
      cases q with
      | nil => rfl
      | cons e rest => simp [fuelFor] at hfuel
    subst hq
    simp only [downfindGo, remEntries, Nat.add_zero]
    rw [if_neg (by omega)]
  | succ n ih =>
    intro q c hfuel hnm hc
    cases q with
    | nil =>
      simp only [downfindGo, remEntries, Nat.add_zero]
      rw [if_neg (by omega)]
    | cons qe rest =>
      obtain ⟨rel, cs⟩ := qe
      simp only [noMatchQ, Bool.and_eq_true] at hnm
      simp only [downfindGo]
      rw [if_pos hc]
      have hrem : remEntries ((rel, cs) :: rest) = entsSize cs + remEntries rest := rfl
      by_cases hlen : c + cs.length < limit
      · rw [scanChildren_noMatch_done pat limit rel cs c hnm.1 hlen]
        show downfindGo pat limit n (rest ++ pushedDirs rel cs) (c + cs.length) =
          if limit ≤ c + remEntries ((rel, cs) :: rest) then
            Except.error (FindError.limitReached limit)
          else Except.error (FindError.notFound (c + remEntries ((rel, cs) :: rest)))
        have hfuel' : fuelFor (rest ++ pushedDirs rel cs) ≤ n := by
          rw [fuelFor_append, fuelFor_pushedDirs]
          simp only [fuelFor] at hfuel
          omega
        have hnm' : noMatchQ pat (rest ++ pushedDirs rel cs) = true := by
          rw [noMatchQ_append]
          simp [hnm.2, noMatchQ_pushedDirs pat rel cs hnm.1]
        rw [ih (rest ++ pushedDirs rel cs) (c + cs.length) hfuel' hnm' hlen]
        have harith : c + cs.length + remEntries (rest ++ pushedDirs rel cs) =
            c + remEntries ((rel, cs) :: rest) := by
          rw [remEntries_append, hrem]
          have := remEntries_pushedDirs rel cs
          omega
        rw [harith]
      · have hle : limit ≤ c + cs.length := by omega
        rw [scanChildren_noMatch_hit pat limit rel cs c hnm.1 hc hle]
        have : limit ≤ c + remEntries ((rel, cs) :: rest) := by
          rw [hrem]
          have := length_le_entsSize cs
          omega
        rw [if_pos this]

/-- C2 (amended): in a tree of `K` total entries none of which matches the
pattern, and a budget `L` with `0 < L < K`, `downfind` fails with the
search-limit error (distinct from the target-not-found error) after
examining exactly `L` entries, never more — the error carries the final
`search_count`, which equals `L`.  Every entry examined in such a search
consumes one budget unit.  (The case `L = 0`, excluded here, behaves
differently: see the counterexample.) -/
theorem downfind_budget_exhaustion (pat : String) (start : List String)
    (tree : List FSEntry) (L : Nat) (hnm : noMatchList pat [] tree = true)
    (h0 : 0 < L) (hK : L < entsSize tree) :
    downfind pat start tree L = .error (.limitReached L) := by
  unfold downfind
  have hfuel : fuelFor [([], tree)] ≤ 1 + dirCountList tree := by
    simp [fuelFor]
  have hnmq : noMatchQ pat [([], tree)] = true := by
    simp [noMatchQ, hnm]
  rw [downfindGo_noMatch pat L (1 + dirCountList tree) [([], tree)] 0 hfuel hnmq h0]
  have hrem : remEntries [([], tree)] = entsSize tree := by
    simp [remEntries]
  rw [if_pos (by omega)]
  rfl

/-- C2 counterexample: the tree `[file "a"]` has `K = 1` entries, none
matching `"zz"`, and the budget `L = 0` satisfies `L < K`; yet `downfind`
reports the target-not-found error (with zero entries examined), not the
search-limit error, because the C++ `while` condition
`search_count < limit` is already false on entry and the fall-through
throw is "Target ... not found." -/
theorem downfind_budget_zero_counterexample :
    noMatchList "zz" [] [.file "a"] = true ∧ entsSize [.file "a"] = 1 ∧
    downfind "zz" [] [.file "a"] 0 = .error (.notFound 0) :=
  ⟨rfl, rfl, rfl⟩

theorem downfind_budget_exhaustion_witness :
    downfind "zz" [] [.file "a", .file "b"] 1 = .error (.limitReached 1) :=
  downfind_budget_exhaustion "zz" [] [.file "a", .file "b"] 1 (by decide)
    (by decide) (by decide)
